import Mathlib

/-!
Verification development for the `dolfinx_mpc` utility layer
(`cpp/utils.cpp`).  The C++ routines are shallowly embedded as executable
Lean definitions: MPI ranks are natural numbers, per-rank booleans are
functions `Nat → Bool`, adjacency lists are Lean lists, and the external
collaborators (mesh connectivity, dofmaps, index maps) are packaged as
structures of functions.  Machine `int32` indices are modelled as `Nat`
(all indices handled by these routines are non-negative), and fallible
code paths (`throw`, `assert`) are modelled with `Except`/`Option`.
-/

namespace DolfinxMPC

/-! ### `create_neighborhood_comms` (utils.cpp, lines 294-356)

Each rank contributes a boolean `has_slave` and a boolean "some meshtag
value equals `master_marker`".  After the two `MPI_Alltoall` calls every
rank holds the same two arrays `procs_with_slaves` / `procs_with_masters`,
modelled here as the functions `slaves masters : Nat → Bool` over ranks
`0 ≤ r < P`.  Rank `r` then builds its local source/destination edge
lists for the two distributed graph communicators. -/

/-- Source edges declared by rank `r` for `comms[0]` (slaves → masters):
if `r` owns a master, every other rank owning a slave is a source
(utils.cpp lines 324-328). -/
def slaveToMasterSources (P : ℕ) (slaves masters : ℕ → Bool) (r : ℕ) : List ℕ :=
  if masters r then (List.range P).filter (fun i => decide (i ≠ r) && slaves i) else []

/-- Destination edges declared by rank `r` for `comms[0]` (slaves → masters):
if `r` owns a slave, every other rank owning a master is a destination
(utils.cpp lines 330-334). -/
def slaveToMasterDests (P : ℕ) (slaves masters : ℕ → Bool) (r : ℕ) : List ℕ :=
  if slaves r then (List.range P).filter (fun i => decide (i ≠ r) && masters i) else []

/-- Source edges declared by rank `r` for `comms[1]` (masters → slaves):
the code passes `dest_edges` as the source list (utils.cpp lines 345-353). -/
def masterToSlaveSources (P : ℕ) (slaves masters : ℕ → Bool) (r : ℕ) : List ℕ :=
  slaveToMasterDests P slaves masters r

/-- Destination edges declared by rank `r` for `comms[1]` (masters → slaves):
the code passes `source_edges` as the destination list (utils.cpp lines 345-353). -/
def masterToSlaveDests (P : ℕ) (slaves masters : ℕ → Bool) (r : ℕ) : List ℕ :=
  slaveToMasterSources P slaves masters r

/-- Edge `i → j` of the forward (slave → master) topology `comms[0]`:
rank `i` lists `j` among its destinations. -/
def ForwardEdge (P : ℕ) (slaves masters : ℕ → Bool) (i j : ℕ) : Prop :=
  j ∈ slaveToMasterDests P slaves masters i

/-- Edge `i → j` of the reverse (master → slave) topology `comms[1]`:
rank `i` lists `j` among its destinations. -/
def ReverseEdge (P : ℕ) (slaves masters : ℕ → Bool) (i j : ℕ) : Prop :=
  j ∈ masterToSlaveDests P slaves masters i

instance (P : ℕ) (slaves masters : ℕ → Bool) (i j : ℕ) :
    Decidable (ForwardEdge P slaves masters i j) := by
  unfold ForwardEdge; infer_instance

instance (P : ℕ) (slaves masters : ℕ → Bool) (i j : ℕ) :
    Decidable (ReverseEdge P slaves masters i j) := by
  unfold ReverseEdge; infer_instance

/-- The concrete 4-rank scenario of the spec: ranks 0 and 1 own slaves. -/
def fourRankSlaves : ℕ → Bool := fun r => r < 2

/-- The concrete 4-rank scenario of the spec: ranks 2 and 3 own the
matching master marker, and rank 0 also owns a master. -/
def fourRankMasters : ℕ → Bool := fun r => r == 0 || (2 ≤ r && r < 4)

/-! ### `create_owner_to_ghost_comm` (utils.cpp, lines 358-399)

The index map collaborator is abstracted by `size_local`, the owning rank
of each ghost block (`owners()`, indexed by `block - size_local`) and the
`index_to_dest_ranks()` adjacency `shared_indices`.  The two `std::set`
accumulations are modelled by folding `insert` over a `Finset ℕ` and the
final copy into a vector by sorting the set. -/

structure IndexMapModel where
  size_local : ℕ
  ghost_owners : ℕ → ℕ
  shared_indices : ℕ → List ℕ

/-- The `src_edges` set of `create_owner_to_ghost_comm`, linearized:
owners of all listed ghost blocks (utils.cpp lines 382-383, 387-388). -/
def ownerToGhostSrcEdges (m : IndexMapModel) (ghost_blocks : List ℕ) : List ℕ :=
  (ghost_blocks.foldl (fun s b => insert (m.ghost_owners (b - m.size_local)) s)
    (∅ : Finset ℕ)).sort (· ≤ ·)

/-- The `dst_edges` set of `create_owner_to_ghost_comm`, linearized:
all ranks ghosting any of the listed local blocks
(utils.cpp lines 378-380, 389-390). -/
def ownerToGhostDstEdges (m : IndexMapModel) (local_blocks : List ℕ) : List ℕ :=
  (local_blocks.foldl (fun s b => (m.shared_indices b).foldl (fun t p => insert p t) s)
    (∅ : Finset ℕ)).sort (· ≤ ·)

/-! ### `create_sparsity_pattern` (utils.cpp, lines 522-648)

The `MultiPointConstraint` collaborator is abstracted to the data the
routine reads: the `cell_to_slaves()` adjacency, the `masters()`
adjacency (slave dof → master dofs), the function space's
`index_map_bs()` and its dofmap's `cell_dofs`.  The sparsity pattern is
modelled as the list of inserted `(row_block, col_block)` entries, and an
inserter callback as a function producing the entries of one `insert`
call.  `pattern.insert(rows, cols)` inserts the full product
`rows × cols`. -/

structure MPCModel where
  numCells : ℕ
  cell_to_slaves : ℕ → List ℕ
  masters : ℕ → List ℕ
  bs : ℕ
  cell_dofs : ℕ → List ℕ

/-- Entries of one `pattern.insert(rows, cols)` call. -/
def insertEntries (rows cols : List ℕ) : List (ℕ × ℕ) :=
  rows.flatMap (fun r => cols.map (fun c => (r, c)))

/-- An inserter callback, returning the entries it adds to the pattern. -/
abbrev Inserter := List ℕ → List ℕ → List (ℕ × ℕ)

/-- The `square_inserter` (utils.cpp lines 621-626): inserts
`(dofs_m, dofs_s)` and `(dofs_s, dofs_m)`. -/
def square_inserter : Inserter :=
  fun dofs_m dofs_s => insertEntries dofs_m dofs_s ++ insertEntries dofs_s dofs_m

/-- The first rectangular-path inserter (utils.cpp lines 637-638):
inserts `(dofs_m, dofs_s)` only. -/
def row_inserter : Inserter :=
  fun dofs_m dofs_s => insertEntries dofs_m dofs_s

/-- The second rectangular-path inserter (utils.cpp lines 642-643):
inserts `(dofs_s, dofs_m)` only. -/
def col_inserter : Inserter :=
  fun dofs_m dofs_s => insertEntries dofs_s dofs_m

/-- The `do_nothing_inserter` (utils.cpp lines 631-633). -/
def do_nothing_inserter : Inserter := fun _ _ => []

/-- Flattening of the master lists of a cell's slaves into block indices:
each master dof is divided by the index-map block size of the main
constraint's function space (utils.cpp lines 592-599, `std::div`;
master dofs are non-negative so `Nat` division agrees with `div.quot`). -/
def flattened_masters (mpc : MPCModel) (slaves : List ℕ) : List ℕ :=
  slaves.flatMap (fun s => (mpc.masters s).map (fun master => master / mpc.bs))

/-- The nested master loops of `pattern_populator`
(utils.cpp lines 601-613): for each flattened master `m` (index `j`),
insert `([m], cell_dofs)` via the pattern inserter, then for each later
flattened master `k > j` call the master inserter with
`(other_master_block, master_block) = ([m_k], [m_j])`. -/
def masterLoop (ins mins : Inserter) (cell_dofs : List ℕ) : List ℕ → List (ℕ × ℕ)
  | [] => []
  | m :: rest =>
      ins [m] cell_dofs ++ rest.flatMap (fun k => mins [k] [m])
        ++ masterLoop ins mins cell_dofs rest

/-- The `pattern_populator` lambda (utils.cpp lines 557-615): loop over
the cells of `mpc.cell_to_slaves`, skip cells without slaves, take the
cell dofs from the off-axis constraint's function space, flatten the
cell's masters and run the nested master loops. -/
def pattern_populator (mpc mpc_off_axis : MPCModel) (ins mins : Inserter) :
    List (ℕ × ℕ) :=
  (List.range mpc.numCells).flatMap (fun i =>
    if (mpc.cell_to_slaves i).isEmpty then []
    else
      masterLoop ins mins (mpc_off_axis.cell_dofs i)
        (flattened_masters mpc (mpc.cell_to_slaves i)))

/-- Entries added by the two rectangular-path traversals
(utils.cpp lines 629-645): one inserting `(master, cell_dofs)`, one
inserting `(cell_dofs, master)`, both with the do-nothing master
inserter. -/
def rectPatternEntries (mpc0 mpc1 : MPCModel) : List (ℕ × ℕ) :=
  pattern_populator mpc0 mpc1 row_inserter do_nothing_inserter
    ++ pattern_populator mpc1 mpc0 col_inserter do_nothing_inserter

/-- The master-master cross entries of the square path: the populator run
with a do-nothing pattern inserter and the square master inserter. -/
def crossMasterEntries (mpc0 mpc1 : MPCModel) : List (ℕ × ℕ) :=
  pattern_populator mpc0 mpc1 do_nothing_inserter square_inserter

/-- `create_sparsity_pattern` (utils.cpp lines 522-648).  The standard
pattern of the unconstrained form (`build_standard_pattern`, an external
collaborator) is abstracted as the entry list `standard`; `same` models
the pointer equality `mpc0 == mpc1` selecting the single-traversal square
path.  Throws (models `std::runtime_error`) when the form's rank is not
2, before any pattern is built. -/
def create_sparsity_pattern (formRank : ℕ) (standard : List (ℕ × ℕ))
    (same : Bool) (mpc0 mpc1 : MPCModel) : Except String (List (ℕ × ℕ)) :=
  if formRank ≠ 2 then
    Except.error "Cannot create sparsity pattern. Form is not a bilinear form"
  else
    Except.ok (standard ++
      if same then pattern_populator mpc0 mpc1 square_inserter square_inserter
      else rectPatternEntries mpc0 mpc1)

/-- Concrete constraint used as witness for C1: one cell, one slave `0`
with master dof `2`, block size 1, cell dofs `[0, 1]`. -/
def mpcW : MPCModel where
  numCells := 1
  cell_to_slaves := fun _ => [0]
  masters := fun _ => [2]
  bs := 1
  cell_dofs := fun _ => [0, 1]

/-- Concrete constraint exhibiting the C2 counterexample: one cell with
two slaves `0, 1`, masters `0` and `5`, block size 1, cell dofs
`[1, 2]`. -/
def mpcC2 : MPCModel where
  numCells := 1
  cell_to_slaves := fun _ => [0, 1]
  masters := fun s => if s = 0 then [0] else [5]
  bs := 1
  cell_dofs := fun _ => [1, 2]

/-! ### `create_block_to_facet_map` (utils.cpp, lines 27-94)

The mesh/dofmap collaborators are abstracted as functions: `e_to_c` and
`c_to_e` are the entity↔cell connectivities, `cell_dofs` the dof blocks
of a cell and `closure_dofs` the element layout's
`entity_closure_dofs(dim, local_entity)` (the entity dimension `dim` is
fixed throughout one call, so it is left implicit in the structure).
`num_dofs` is `size_local() + num_ghosts()`.  The `assert(cell.size() ==
1)` of the first pass is modelled by an `Option` result; the debug
assertion that the entity occurs in its cell's entity list is reflected
by `entityLocalIndex` returning the found position (`std::distance` of
the `std::find` result). -/

structure FacetSpace where
  num_dofs : ℕ
  e_to_c : ℕ → List ℕ
  c_to_e : ℕ → List ℕ
  cell_dofs : ℕ → List ℕ
  closure_dofs : ℕ → List ℕ

/-- The unique incident cell of an entity (`cell[0]`, utils.cpp line 52). -/
def entityCell (M : FacetSpace) (e : ℕ) : ℕ := (M.e_to_c e).headD 0

/-- The local index of an entity within its cell
(utils.cpp lines 55-61). -/
def entityLocalIndex (M : FacetSpace) (e : ℕ) : ℕ :=
  (M.c_to_e (entityCell M e)).indexOf e

/-- The dof blocks of an entity's closure, read through the cell's dof
list (`cell_blocks[closure_blocks[j]]`, utils.cpp lines 62-67). -/
def blocksOfEntity (M : FacetSpace) (e : ℕ) : List ℕ :=
  (M.closure_dofs (entityLocalIndex M e)).map
    (fun j => (M.cell_dofs (entityCell M e)).getD j 0)

/-- `num_facets_per_dof[dof]++` (utils.cpp line 68). -/
def incr (cnt : List ℕ) (d : ℕ) : List ℕ := cnt.set d (cnt.getD d 0 + 1)

/-- Pass 1 (utils.cpp lines 43-70): count, per dof block, the incidences
to the input entities. -/
def pass1 (M : FacetSpace) (entities : List ℕ) : List ℕ :=
  entities.foldl (fun cnt e => (blocksOfEntity M e).foldl incr cnt)
    (List.replicate M.num_dofs 0)

/-- One write of pass 2 (utils.cpp line 90):
`data[offsets[dof] + num_facets_per_dof[dof]++] = entities[i]`. -/
def fillStep (off : List ℕ) (st : List ℕ × List ℕ) (d e : ℕ) :
    List ℕ × List ℕ :=
  (st.1.set (off.getD d 0 + st.2.getD d 0) e, incr st.2 d)

/-- Pass 2 (utils.cpp lines 81-92): refill the zeroed counters as write
cursors and scatter each entity into its blocks' slices of `data`.
Returns `(data, cursors)`. -/
def pass2 (M : FacetSpace) (entities : List ℕ) (off : List ℕ) :
    List ℕ × List ℕ :=
  entities.foldl
    (fun st e => (blocksOfEntity M e).foldl (fun st d => fillStep off st d e) st)
    (List.replicate (off.getLastD 0) 0, List.replicate M.num_dofs 0)

/-- `create_block_to_facet_map` (utils.cpp lines 27-94): count, prefix-sum
(`offsets[0] = 0` and `std::partial_sum`, modelled by `List.scanl`),
fill; `none` models a failure of the `assert(cell.size() == 1)` at
line 51. -/
def create_block_to_facet_map (M : FacetSpace) (entities : List ℕ) :
    Option (List ℕ × List ℕ) :=
  if entities.all (fun e => (M.e_to_c e).length == 1) then
    some ((pass2 M entities (List.scanl (· + ·) 0 (pass1 M entities))).1,
      List.scanl (· + ·) 0 (pass1 M entities))
  else none

/-- The direct enumeration of (block, entity) incidences of an entity
list, in traversal order. -/
def incid (M : FacetSpace) (entities : List ℕ) : List (ℕ × ℕ) :=
  entities.flatMap (fun e => (blocksOfEntity M e).map (fun d => (d, e)))

/-- Concrete witness instance for C5/C8: one cell `0` with entities
`[0, 1]` and dof blocks `[2, 0, 1]`. -/
def facetW : FacetSpace where
  num_dofs := 3
  e_to_c := fun _ => [0]
  c_to_e := fun _ => [0, 1]
  cell_dofs := fun _ => [2, 0, 1]
  closure_dofs := fun le => if le = 0 then [0, 1] else [1, 2]

/-- Instance violating the one-incident-cell precondition: entity `0`
has two incident cells. -/
def facetBad : FacetSpace where
  num_dofs := 1
  e_to_c := fun _ => [0, 1]
  c_to_e := fun _ => [0]
  cell_dofs := fun _ => [0]
  closure_dofs := fun _ => [0]

/-! ### `get_basis_functions` (utils.cpp, lines 99-256)

The element collaborator supplies `tabulate_shape(0, 1)` (whose entries 2
and 3 together with the element block size fix the output shape) and the
geometry/basis machinery.  Only the shape data and the early-return path
for a negative cell index are analysed here; the whole geometry pull-back,
tabulation and push-forward of the non-negative path (floating-point
numerics of an out-of-scope collaborator) is abstracted as the opaque
`compute` field, with matrix entries in `ℚ`.  The returned
`xt::xtensor<double, 2>` is modelled as its shape paired with its entry
function. -/

structure BasisEvalInput where
  basis_shape2 : ℕ
  basis_shape3 : ℕ
  element_bs : ℕ
  compute : List ℚ → ℕ → ℕ → ℕ → ℚ

/-- `get_basis_functions`: allocate a zero array of shape
`(basis_shape[2] * element_bs, basis_shape[3] * element_bs)` and return
it unchanged when `index < 0` (utils.cpp lines 139-143); otherwise run
the geometry and basis evaluation. -/
def get_basis_functions (V : BasisEvalInput) (x : List ℚ) (index : ℤ) :
    (ℕ × ℕ) × (ℕ → ℕ → ℚ) :=
  let rows := V.basis_shape2 * V.element_bs
  let cols := V.basis_shape3 * V.element_bs
  if index < 0 then ((rows, cols), fun _ _ => 0)
  else ((rows, cols), fun i j => V.compute x index.toNat i j)

/-! ### `compute_colliding_cells` / `find_local_collisions`
(utils.cpp, lines 988-1053)

`dolfinx::geometry::squared_distance` is an external collaborator; it is
abstracted as `dist i c : ℚ`, the squared distance from point `i` to
candidate cell `c` (the code replicates point `i` once per candidate
cell before the call).  `std::min_element` keeps the first minimum: it
moves only on a strict `<`. -/

/-- `std::min_element` over the tail of the distance array, carrying the
current best `(position, value)` and the position `k` of the next
element. -/
def min_element_aux (best : ℕ × ℚ) (k : ℕ) : List ℚ → ℕ × ℚ
  | [] => best
  | d :: rest => min_element_aux (if d < best.2 then (k, d) else best) (k + 1) rest

/-- One iteration of the loop of `compute_colliding_cells`
(utils.cpp lines 999-1022) for the candidate row `cells` of one point:
empty candidate row gives an empty output row; otherwise the first
minimizer of the squared distances is pushed iff its distance is below
`eps2`. -/
def collidingRow (dist : ℕ → ℚ) (eps2 : ℚ) (cells : List ℕ) : List ℕ :=
  match cells with
  | [] => []
  | c :: rest =>
      let best := min_element_aux (0, dist c) 1 (rest.map dist)
      if best.2 < eps2 then [(c :: rest).getD best.1 0] else []

/-- `compute_colliding_cells`: one output row per input point (the rows
of the returned `AdjacencyList`, whose offsets record one slice per
point). -/
def compute_colliding_cells (dist : ℕ → ℕ → ℚ) (eps2 : ℚ)
    (candidate_cells : List (List ℕ)) : List (List ℕ) :=
  (List.range candidate_cells.length).map
    (fun i => collidingRow (dist i) eps2 (candidate_cells.getD i []))

/-- `find_local_collisions` (utils.cpp lines 1028-1053): the bounding-box
tree collisions are the abstracted `candidate_cells` input; per point the
result is the first cell of the exact-collision row, or `-1` when the row
is empty. -/
def find_local_collisions (dist : ℕ → ℕ → ℚ) (eps2 : ℚ)
    (candidate_cells : List (List ℕ)) : List ℤ :=
  (compute_colliding_cells dist eps2 candidate_cells).map
    (fun row => match row with | [] => -1 | c :: _ => (c : ℤ))

end DolfinxMPC

namespace DolfinxMPC

/-! ## Theorems -/

theorem mem_foldl_insert (l : List ℕ) (f : ℕ → ℕ) (s : Finset ℕ) (r : ℕ) :
    r ∈ l.foldl (fun t b => insert (f b) t) s ↔ r ∈ s ∨ ∃ b ∈ l, f b = r := by
  induction l generalizing s with
  | nil => simp
  | cons b l ih =>
      simp only [List.foldl_cons, ih, Finset.mem_insert, List.mem_cons]
      constructor
      · rintro (⟨h | h⟩ | ⟨b', hb', hfb'⟩)
        · exact Or.inr ⟨b, Or.inl rfl, h.symm⟩
        · exact Or.inl h
        · exact Or.inr ⟨b', Or.inr hb', hfb'⟩
      · rintro (h | ⟨b', hb' | hb', hfb'⟩)
        · exact Or.inl (Or.inr h)
        · exact Or.inl (Or.inl (hb' ▸ hfb'.symm))
        · exact Or.inr ⟨b', hb', hfb'⟩

theorem mem_foldl_insert_list (l : List ℕ) (s : Finset ℕ) (r : ℕ) :
    r ∈ l.foldl (fun t p => insert p t) s ↔ r ∈ s ∨ r ∈ l := by
  have := mem_foldl_insert l id s r
  simpa using this

theorem mem_foldl_insert_nested (l : List ℕ) (g : ℕ → List ℕ) (s : Finset ℕ) (r : ℕ) :
    r ∈ l.foldl (fun t b => (g b).foldl (fun u p => insert p u) t) s ↔
      r ∈ s ∨ ∃ b ∈ l, r ∈ g b := by
  induction l generalizing s with
  | nil => simp
  | cons b l ih =>
      simp only [List.foldl_cons, ih, mem_foldl_insert_list, List.mem_cons]
      constructor
      · rintro (⟨h | h⟩ | ⟨b', hb', hr⟩)
        · exact Or.inl h
        · exact Or.inr ⟨b, Or.inl rfl, h⟩
        · exact Or.inr ⟨b', Or.inr hb', hr⟩
      · rintro (h | ⟨b', hb' | hb', hr⟩)
        · exact Or.inl (Or.inl h)
        · exact Or.inl (Or.inr (hb' ▸ hr))
        · exact Or.inr ⟨b', hb', hr⟩

/-- Claim C3: for `create_neighborhood_comms`, for all distinct ranks `i, j`
and any per-rank slave/master ownership booleans, the forward
(slave → master) topology has edge `i → j` iff the reverse
(master → slave) topology has edge `j → i`; and neither topology ever
contains a self-edge `r → r`, even when `r` owns both a slave and a
master. -/
theorem claim_C3 (P : ℕ) (slaves masters : ℕ → Bool) (i j : ℕ)
    (hi : i < P) (hj : j < P) (hij : i ≠ j) :
    (ForwardEdge P slaves masters i j ↔ ReverseEdge P slaves masters j i) ∧
    (∀ r : ℕ, ¬ ForwardEdge P slaves masters r r ∧
      ¬ ReverseEdge P slaves masters r r) := by
  constructor
  · unfold ForwardEdge ReverseEdge masterToSlaveDests slaveToMasterSources
      slaveToMasterDests
    by_cases hs : slaves i <;> by_cases hm : masters j <;>
      simp [hs, hm, List.mem_filter, List.mem_range, hi, hj, hij, Ne.symm hij]
  · intro r
    constructor
    · unfold ForwardEdge slaveToMasterDests
      by_cases hs : slaves r <;> simp [hs, List.mem_filter]
    · unfold ReverseEdge masterToSlaveDests slaveToMasterSources
      by_cases hm : masters r <;> simp [hm, List.mem_filter]

/-- Witness for C3 at a concrete instance: 2 ranks, rank 0 owns a slave,
rank 1 owns a master. -/
theorem claim_C3_witness :
    ((0:ℕ) < 2 ∧ (1:ℕ) < 2 ∧ (0:ℕ) ≠ 1) ∧
    ((ForwardEdge 2 (fun r => r == 0) (fun r => r == 1) 0 1 ↔
        ReverseEdge 2 (fun r => r == 0) (fun r => r == 1) 1 0) ∧
      (∀ r : ℕ, ¬ ForwardEdge 2 (fun r => r == 0) (fun r => r == 1) r r ∧
        ¬ ReverseEdge 2 (fun r => r == 0) (fun r => r == 1) r r)) :=
  ⟨⟨by decide, by decide, by decide⟩,
    claim_C3 2 (fun r => r == 0) (fun r => r == 1) 0 1
      (by decide) (by decide) (by decide)⟩

/-- Counterexample to claim C4 as stated: in the 4-rank scenario
(ranks 0,1 own slaves; ranks 2,3 own the master marker; rank 0 also owns
a master) the code produces the forward edge `1 → 0` — rank 1 owns a
slave and rank 0 owns a master — which the claimed edge set
`{0→2, 0→3, 1→2, 1→3}` omits, so the edge set is not exactly that set. -/
theorem claim_C4_counterexample :
    ForwardEdge 4 fourRankSlaves fourRankMasters 1 0 ∧
      ((1, 0) ∈ [((0:ℕ), (2:ℕ)), (0, 3), (1, 2), (1, 3)] → False) := by
  constructor
  · decide
  · decide

/-- Claim C4 (amended): in the 4-rank scenario the forward (slave→master)
topology's edge set is exactly `{0→2, 0→3, 1→0, 1→2, 1→3}` — the edge
`1→0` is present because rank 0 also owns a master — and there is still
no self-edge `0→0`. -/
theorem claim_C4_amended (i j : ℕ) (hi : i < 4) (hj : j < 4) :
    ForwardEdge 4 fourRankSlaves fourRankMasters i j ↔
      (i, j) ∈ [((0:ℕ), (2:ℕ)), (0, 3), (1, 0), (1, 2), (1, 3)] := by
  interval_cases i <;> interval_cases j <;> decide

/-- Witness for the amended C4: the edge `0 → 2` is present. -/
theorem claim_C4_amended_witness :
    ForwardEdge 4 fourRankSlaves fourRankMasters 0 2 :=
  (claim_C4_amended 0 2 (by decide) (by decide)).mpr (by decide)

/-- Claim C6: for `create_owner_to_ghost_comm`, the source-edge list is
exactly the deduplicated ordered set of owning ranks of the ghost blocks,
and the destination-edge list is exactly the deduplicated ordered set of
ranks holding a ghost copy of some local block (via
`index_to_dest_ranks`). -/
theorem claim_C6 (m : IndexMapModel) (local_blocks ghost_blocks : List ℕ) :
    (∀ r : ℕ, r ∈ ownerToGhostSrcEdges m ghost_blocks ↔
      ∃ b ∈ ghost_blocks, m.ghost_owners (b - m.size_local) = r) ∧
    (ownerToGhostSrcEdges m ghost_blocks).Sorted (· ≤ ·) ∧
    (ownerToGhostSrcEdges m ghost_blocks).Nodup ∧
    (∀ r : ℕ, r ∈ ownerToGhostDstEdges m local_blocks ↔
      ∃ b ∈ local_blocks, r ∈ m.shared_indices b) ∧
    (ownerToGhostDstEdges m local_blocks).Sorted (· ≤ ·) ∧
    (ownerToGhostDstEdges m local_blocks).Nodup := by
  refine ⟨?_, ?_, ?_, ?_, ?_, ?_⟩
  · intro r
    unfold ownerToGhostSrcEdges
    rw [Finset.mem_sort]
    simpa using mem_foldl_insert ghost_blocks
      (fun b => m.ghost_owners (b - m.size_local)) ∅ r
  · exact Finset.sort_sorted _ _
  · exact Finset.sort_nodup _ _
  · intro r
    unfold ownerToGhostDstEdges
    rw [Finset.mem_sort]
    simpa using mem_foldl_insert_nested local_blocks m.shared_indices ∅ r
  · exact Finset.sort_sorted _ _
  · exact Finset.sort_nodup _ _

theorem mem_insertEntries (rows cols : List ℕ) (a b : ℕ) :
    (a, b) ∈ insertEntries rows cols ↔ a ∈ rows ∧ b ∈ cols := by
  simp only [insertEntries, List.mem_flatMap, List.mem_map, Prod.mk.injEq]
  constructor
  · rintro ⟨r, hr, c, hc, rfl, rfl⟩; exact ⟨hr, hc⟩
  · rintro ⟨ha, hb⟩; exact ⟨a, ha, b, hb, rfl, rfl⟩

theorem mem_masterLoop_ins (ins mins : Inserter) (cds fm : List ℕ)
    (m : ℕ) (hm : m ∈ fm) (p : ℕ × ℕ) (hp : p ∈ ins [m] cds) :
    p ∈ masterLoop ins mins cds fm := by
  induction fm with
  | nil => cases hm
  | cons a rest ih =>
      rcases List.mem_cons.mp hm with h | h
      · subst h
        simp only [masterLoop, List.mem_append]
        exact Or.inl (Or.inl hp)
      · simp only [masterLoop, List.mem_append]
        exact Or.inr (ih h)

theorem mem_masterLoop_pair (ins mins : Inserter) (cds fm : List ℕ)
    (j k : ℕ) (hj : j < fm.length) (hk : k < fm.length) (hjk : j < k)
    (p : ℕ × ℕ) (hp : p ∈ mins [fm.get ⟨k, hk⟩] [fm.get ⟨j, hj⟩]) :
    p ∈ masterLoop ins mins cds fm := by
  induction fm generalizing j k with
  | nil => simp at hj
  | cons a rest ih =>
      cases j with
      | zero =>
          cases k with
          | zero => omega
          | succ k' =>
              have hk' : k' < rest.length := by simpa using hk
              simp only [masterLoop, List.mem_append]
              exact Or.inl (Or.inr (List.mem_flatMap.mpr
                ⟨rest.get ⟨k', hk'⟩, List.get_mem rest k' hk', hp⟩))
      | succ j' =>
          cases k with
          | zero => omega
          | succ k' =>
              have hj' : j' < rest.length := by simpa using hj
              have hk' : k' < rest.length := by simpa using hk
              simp only [masterLoop, List.mem_append]
              exact Or.inr (ih j' k' hj' hk' (by omega) hp)

theorem mem_pattern_populator (mpc mpc_off_axis : MPCModel)
    (ins mins : Inserter) (i : ℕ) (hi : i < mpc.numCells)
    (hne : mpc.cell_to_slaves i ≠ []) (p : ℕ × ℕ)
    (hp : p ∈ masterLoop ins mins (mpc_off_axis.cell_dofs i)
      (flattened_masters mpc (mpc.cell_to_slaves i))) :
    p ∈ pattern_populator mpc mpc_off_axis ins mins := by
  unfold pattern_populator
  refine List.mem_flatMap.mpr ⟨i, List.mem_range.mpr hi, ?_⟩
  rw [if_neg]
  · exact hp
  · simp [hne]

/-- Claim C1: for `create_sparsity_pattern` in the square case
(`mpc0 == mpc1`), for every local cell with a non-empty cell-to-slave
row, every flattened master block `m` (each master dof of each slave on
the cell divided by the index-map block size) gets the entries `(m, d)`
and `(d, m)` for every trial-space dof block `d` of the cell, and every
pair of flattened master blocks `m_j, m_k` (`j < k` in flattening order)
gets both cross entries `(m_j, m_k)` and `(m_k, m_j)`. -/
theorem claim_C1 (mpc : MPCModel) (standard pat : List (ℕ × ℕ))
    (hpat : create_sparsity_pattern 2 standard true mpc mpc = Except.ok pat)
    (i : ℕ) (hi : i < mpc.numCells) (hne : mpc.cell_to_slaves i ≠ []) :
    (∀ s ∈ mpc.cell_to_slaves i, ∀ master ∈ mpc.masters s,
      ∀ d ∈ mpc.cell_dofs i,
        (master / mpc.bs, d) ∈ pat ∧ (d, master / mpc.bs) ∈ pat) ∧
    (∀ j k : ℕ,
      ∀ hj : j < (flattened_masters mpc (mpc.cell_to_slaves i)).length,
      ∀ hk : k < (flattened_masters mpc (mpc.cell_to_slaves i)).length,
      j < k →
      ((flattened_masters mpc (mpc.cell_to_slaves i)).get ⟨j, hj⟩,
        (flattened_masters mpc (mpc.cell_to_slaves i)).get ⟨k, hk⟩) ∈ pat ∧
      ((flattened_masters mpc (mpc.cell_to_slaves i)).get ⟨k, hk⟩,
        (flattened_masters mpc (mpc.cell_to_slaves i)).get ⟨j, hj⟩) ∈ pat) := by
  have hpat' : pat = standard ++
      pattern_populator mpc mpc square_inserter square_inserter := by
    simpa [create_sparsity_pattern] using hpat.symm
  subst hpat'
  constructor
  · intro s hs master hmaster d hd
    have hm : master / mpc.bs ∈ flattened_masters mpc (mpc.cell_to_slaves i) :=
      List.mem_flatMap.mpr ⟨s, hs, List.mem_map.mpr ⟨master, hmaster, rfl⟩⟩
    constructor
    · refine List.mem_append_right _ (mem_pattern_populator mpc mpc _ _ i hi hne _
        (mem_masterLoop_ins _ _ _ _ _ hm _ ?_))
      simp only [square_inserter, List.mem_append]
      exact Or.inl ((mem_insertEntries _ _ _ _).mpr ⟨by simp, hd⟩)
    · refine List.mem_append_right _ (mem_pattern_populator mpc mpc _ _ i hi hne _
        (mem_masterLoop_ins _ _ _ _ _ hm _ ?_))
      simp only [square_inserter, List.mem_append]
      exact Or.inr ((mem_insertEntries _ _ _ _).mpr ⟨hd, by simp⟩)
  · intro j k hj hk hjk
    constructor
    · refine List.mem_append_right _ (mem_pattern_populator mpc mpc _ _ i hi hne _
        (mem_masterLoop_pair _ _ _ _ j k hj hk hjk _ ?_))
      simp only [square_inserter, List.mem_append]
      exact Or.inr ((mem_insertEntries _ _ _ _).mpr ⟨by simp, by simp⟩)
    · refine List.mem_append_right _ (mem_pattern_populator mpc mpc _ _ i hi hne _
        (mem_masterLoop_pair _ _ _ _ j k hj hk hjk _ ?_))
      simp only [square_inserter, List.mem_append]
      exact Or.inl ((mem_insertEntries _ _ _ _).mpr ⟨by simp, by simp⟩)

/-- Witness for C1: the single-cell single-slave constraint `mpcW`. -/
theorem claim_C1_witness :
    (∀ s ∈ mpcW.cell_to_slaves 0, ∀ master ∈ mpcW.masters s,
      ∀ d ∈ mpcW.cell_dofs 0,
        (master / mpcW.bs, d) ∈
            ([] ++ pattern_populator mpcW mpcW square_inserter square_inserter) ∧
        (d, master / mpcW.bs) ∈
            ([] ++ pattern_populator mpcW mpcW square_inserter square_inserter)) ∧
    (∀ j k : ℕ,
      ∀ hj : j < (flattened_masters mpcW (mpcW.cell_to_slaves 0)).length,
      ∀ hk : k < (flattened_masters mpcW (mpcW.cell_to_slaves 0)).length,
      j < k →
      ((flattened_masters mpcW (mpcW.cell_to_slaves 0)).get ⟨j, hj⟩,
        (flattened_masters mpcW (mpcW.cell_to_slaves 0)).get ⟨k, hk⟩) ∈
          ([] ++ pattern_populator mpcW mpcW square_inserter square_inserter) ∧
      ((flattened_masters mpcW (mpcW.cell_to_slaves 0)).get ⟨k, hk⟩,
        (flattened_masters mpcW (mpcW.cell_to_slaves 0)).get ⟨j, hj⟩) ∈
          ([] ++ pattern_populator mpcW mpcW square_inserter square_inserter)) :=
  claim_C1 mpcW []
    ([] ++ pattern_populator mpcW mpcW square_inserter square_inserter)
    rfl 0 (by decide) (by decide)

/-- Counterexample to claim C2 as stated: for the constraint `mpcC2`
(one cell, two slaves with master blocks `0` and `5`, cell dofs
`[1, 2]`), the square path inserts the master cross entry `(0, 5)` but
neither rectangular traversal does — the rectangular path runs the
do-nothing master inserter — so the two entry sets differ. -/
theorem claim_C2_counterexample :
    ((0, 5) ∈ pattern_populator mpcC2 mpcC2 square_inserter square_inserter) ∧
      ((0, 5) ∈ rectPatternEntries mpcC2 mpcC2 → False) := by
  constructor
  · decide
  · decide

theorem mem_masterLoop_square_split (cds fm : List ℕ) (p : ℕ × ℕ) :
    p ∈ masterLoop square_inserter square_inserter cds fm ↔
      p ∈ masterLoop row_inserter do_nothing_inserter cds fm ∨
      p ∈ masterLoop col_inserter do_nothing_inserter cds fm ∨
      p ∈ masterLoop do_nothing_inserter square_inserter cds fm := by
  induction fm with
  | nil => simp [masterLoop]
  | cons m rest ih =>
      have hsq : ∀ x y : List ℕ,
          square_inserter x y = row_inserter x y ++ col_inserter x y :=
        fun _ _ => rfl
      have hnil : ∀ l : List ℕ,
          (l.flatMap (fun _ => ([] : List (ℕ × ℕ)))) = [] := by
        intro l; induction l <;> simp_all
      simp only [masterLoop, List.mem_append, hsq, do_nothing_inserter,
        hnil, List.not_mem_nil, or_false, false_or, ih]
      tauto

/-- Claim C2 (amended): when `mpc0 == mpc1`, the entry set produced by the
single-traversal square path equals the union of the two one-directional
rectangular-path traversals (both run on the same constraint, with the
do-nothing master inserter) **together with** the master-master cross
entries; the rectangular path alone misses exactly those cross pairs. -/
theorem claim_C2_amended (mpc : MPCModel) (p : ℕ × ℕ) :
    p ∈ pattern_populator mpc mpc square_inserter square_inserter ↔
      p ∈ rectPatternEntries mpc mpc ++ crossMasterEntries mpc mpc := by
  unfold rectPatternEntries crossMasterEntries pattern_populator
  simp only [List.mem_append, List.mem_flatMap]
  constructor
  · rintro ⟨i, hi, hp⟩
    by_cases hne : (mpc.cell_to_slaves i).isEmpty
    · rw [if_pos hne] at hp; cases hp
    · rw [if_neg hne] at hp
      rcases (mem_masterLoop_square_split _ _ _).mp hp with h | h | h
      · exact Or.inl (Or.inl ⟨i, hi, by rw [if_neg hne]; exact h⟩)
      · exact Or.inl (Or.inr ⟨i, hi, by rw [if_neg hne]; exact h⟩)
      · exact Or.inr ⟨i, hi, by rw [if_neg hne]; exact h⟩
  · rintro ((⟨i, hi, hp⟩ | ⟨i, hi, hp⟩) | ⟨i, hi, hp⟩) <;>
      refine ⟨i, hi, ?_⟩ <;>
      by_cases hne : (mpc.cell_to_slaves i).isEmpty
    · rw [if_pos hne] at hp; cases hp
    · rw [if_neg hne] at hp
      rw [if_neg hne]
      exact (mem_masterLoop_square_split _ _ _).mpr (Or.inl hp)
    · rw [if_pos hne] at hp; cases hp
    · rw [if_neg hne] at hp
      rw [if_neg hne]
      exact (mem_masterLoop_square_split _ _ _).mpr (Or.inr (Or.inl hp))
    · rw [if_pos hne] at hp; cases hp
    · rw [if_neg hne] at hp
      rw [if_neg hne]
      exact (mem_masterLoop_square_split _ _ _).mpr (Or.inr (Or.inr hp))

/-- Claim C7: `create_sparsity_pattern` throws a runtime error when the
form's rank is not 2 — immediately, before building a pattern, so the
error is the same whatever the constraints and standard pattern are —
and succeeds (no precondition error) when the rank is 2. -/
theorem claim_C7 (formRank : ℕ) (standard : List (ℕ × ℕ)) (same : Bool)
    (mpc0 mpc1 : MPCModel) :
    (formRank ≠ 2 →
      create_sparsity_pattern formRank standard same mpc0 mpc1 =
        Except.error
          "Cannot create sparsity pattern. Form is not a bilinear form") ∧
    (formRank = 2 →
      ∃ pat, create_sparsity_pattern formRank standard same mpc0 mpc1 =
        Except.ok pat) := by
  constructor
  · intro h
    simp [create_sparsity_pattern, h]
  · intro h
    subst h
    exact ⟨standard ++
      (if same then pattern_populator mpc0 mpc1 square_inserter square_inserter
        else rectPatternEntries mpc0 mpc1), rfl⟩

/-- Witness for C7: a rank-3 form is rejected, a rank-2 form is not. -/
theorem claim_C7_witness :
    (create_sparsity_pattern 3 [] true mpcW mpcW =
      Except.error
        "Cannot create sparsity pattern. Form is not a bilinear form") ∧
    (∃ pat, create_sparsity_pattern 2 [] true mpcW mpcW = Except.ok pat) :=
  ⟨(claim_C7 3 [] true mpcW mpcW).1 (by decide),
    (claim_C7 2 [] true mpcW mpcW).2 rfl⟩

theorem incr_length (cnt : List ℕ) (d : ℕ) : (incr cnt d).length = cnt.length := by
  simp [incr]

theorem getD_set_self (l : List ℕ) (i a : ℕ) (h : i < l.length) :
    (l.set i a).getD i 0 = a := by
  rw [List.getD_eq_getElem _ _ (by simpa using h)]
  exact List.getElem_set_self _

theorem getD_set_ne (l : List ℕ) (i j a : ℕ) (h : i ≠ j) :
    (l.set i a).getD j 0 = l.getD j 0 := by
  by_cases hj : j < l.length
  · rw [List.getD_eq_getElem _ _ (by simpa using hj),
      List.getD_eq_getElem _ _ hj]
    exact List.getElem_set_of_ne h a _
  · rw [List.getD_eq_default _ _ (by simpa using Nat.le_of_not_lt hj),
      List.getD_eq_default _ _ (Nat.le_of_not_lt hj)]

theorem incr_getD_self (cnt : List ℕ) (d : ℕ) (h : d < cnt.length) :
    (incr cnt d).getD d 0 = cnt.getD d 0 + 1 :=
  getD_set_self cnt d _ h

theorem incr_getD_ne (cnt : List ℕ) (d d' : ℕ) (h : d ≠ d') :
    (incr cnt d).getD d' 0 = cnt.getD d' 0 :=
  getD_set_ne cnt d d' _ h

theorem incr_sum (cnt : List ℕ) (d : ℕ) (h : d < cnt.length) :
    (incr cnt d).sum = cnt.sum + 1 := by
  induction cnt generalizing d with
  | nil => simp at h
  | cons c cs ih =>
      cases d with
      | zero =>
          simp only [incr, List.getD_cons_zero, List.set_cons_zero,
            List.sum_cons]
          omega
      | succ d' =>
          have h' : d' < cs.length := by simpa using h
          simp only [incr, List.getD_cons_succ, List.set_cons_succ,
            List.sum_cons]
          have := ih d' h'
          simp only [incr] at this
          omega

theorem foldl_pairs_incr_length (L : List (ℕ × ℕ)) (cnt : List ℕ) :
    (L.foldl (fun c p => incr c p.1) cnt).length = cnt.length := by
  induction L generalizing cnt with
  | nil => rfl
  | cons p rest ih => rw [List.foldl_cons, ih, incr_length]

theorem foldl_pairs_incr_getD (L : List (ℕ × ℕ)) (cnt : List ℕ) (d : ℕ)
    (hd : d < cnt.length) :
    (L.foldl (fun c p => incr c p.1) cnt).getD d 0
      = cnt.getD d 0 + L.countP (fun p => p.1 == d) := by
  induction L generalizing cnt with
  | nil => simp
  | cons p rest ih =>
      rw [List.foldl_cons, ih _ (by rw [incr_length]; exact hd),
        List.countP_cons]
      by_cases h : p.1 = d
      · rw [h, incr_getD_self _ _ hd]
        simp [h]
        omega
      · rw [incr_getD_ne _ _ _ h]
        simp [h]

theorem foldl_pairs_incr_sum (L : List (ℕ × ℕ)) (cnt : List ℕ)
    (h : ∀ p ∈ L, p.1 < cnt.length) :
    (L.foldl (fun c p => incr c p.1) cnt).sum = cnt.sum + L.length := by
  induction L generalizing cnt with
  | nil => simp
  | cons p rest ih =>
      rw [List.foldl_cons,
        ih _ (fun q hq => by
          rw [incr_length]; exact h q (List.mem_cons_of_mem _ hq)),
        incr_sum _ _ (h p (List.mem_cons_self _ _)), List.length_cons]
      omega

theorem foldl_nested_eq {β : Type} (M : FacetSpace) (entities : List ℕ)
    (g : β → ℕ → ℕ → β) (init : β) :
    entities.foldl
        (fun st e => (blocksOfEntity M e).foldl (fun st d => g st d e) st) init
      = (incid M entities).foldl (fun st p => g st p.1 p.2) init := by
  induction entities generalizing init with
  | nil => rfl
  | cons e es ih =>
      have hunf : incid M (e :: es)
          = (blocksOfEntity M e).map (fun d => (d, e)) ++ incid M es := by
        simp [incid]
      rw [List.foldl_cons, hunf, List.foldl_append, List.foldl_map]
      exact ih _

theorem scanl_add_getD (cnt : List ℕ) (a b : ℕ) (hb : b ≤ cnt.length) :
    (List.scanl (· + ·) a cnt).getD b 0 = a + (cnt.take b).sum := by
  induction cnt generalizing a b with
  | nil =>
      have hb0 : b = 0 := Nat.le_zero.mp hb
      subst hb0
      simp [List.scanl]
  | cons c cs ih =>
      cases b with
      | zero => simp [List.scanl_cons]
      | succ b' =>
          rw [List.scanl_cons,
            show ([a] ++ List.scanl (· + ·) (a + c) cs)
              = a :: List.scanl (· + ·) (a + c) cs from rfl,
            List.getD_cons_succ, ih _ _ (by simpa using hb),
            List.take_succ_cons, List.sum_cons]
          omega

theorem scanl_add_getLastD (cnt : List ℕ) (a d0 : ℕ) :
    (List.scanl (· + ·) a cnt).getLastD d0 = a + cnt.sum := by
  induction cnt generalizing a d0 with
  | nil => simp [List.scanl]
  | cons c cs ih =>
      rw [List.scanl_cons,
        show ([a] ++ List.scanl (· + ·) (a + c) cs)
          = a :: List.scanl (· + ·) (a + c) cs from rfl,
        List.getLastD_cons, ih, List.sum_cons]
      omega

theorem take_sum_succ (cnt : List ℕ) (b : ℕ) (hb : b < cnt.length) :
    (cnt.take (b + 1)).sum = (cnt.take b).sum + cnt.getD b 0 := by
  rw [List.take_succ, List.sum_append, List.getElem?_eq_getElem hb,
    List.getD_eq_getElem _ _ hb]
  simp

theorem take_sum_mono (cnt : List ℕ) {b b' : ℕ} (h : b ≤ b') :
    (cnt.take b).sum ≤ (cnt.take b').sum := by
  conv_rhs => rw [← List.take_append_drop b (cnt.take b')]
  rw [List.sum_append, List.take_take, Nat.min_eq_left h]
  omega

theorem count_filter_map_pairs (L : List (ℕ × ℕ)) (b ent : ℕ) :
    ((L.filter (fun p => p.1 == b)).map (fun p => p.2)).count ent
      = L.count (b, ent) := by
  induction L with
  | nil => rfl
  | cons p rest ih =>
      obtain ⟨p1, p2⟩ := p
      rw [List.filter_cons, List.count_cons]
      by_cases h : p1 = b
      · subst h
        simp only [beq_self_eq_true, if_pos, List.map_cons, List.count_cons,
          ih, Prod.mk.injEq]
        by_cases h2 : p2 = ent
        · simp [h2]
        · simp [h2]
      · have hb : ((p1, p2).1 == b) = false := by simpa using h
        rw [hb]
        simp only [Bool.false_eq_true, if_false, ih]
        have : ((p1, p2) == (b, ent)) = false := by
          simp [Prod.ext_iff]
          intro h'
          exact absurd h' h
        rw [this]
        simp

theorem fill_invariant (cnt : List ℕ) (L : List (ℕ × ℕ))
    (hL : ∀ p ∈ L, p.1 < cnt.length)
    (hcnt : ∀ d, d < cnt.length → cnt.getD d 0 = L.countP (fun p => p.1 == d)) :
    ∀ S P : List (ℕ × ℕ), ∀ data cur : List ℕ, L = P ++ S →
    data.length = cnt.sum →
    cur.length = cnt.length →
    (∀ d, d < cnt.length → cur.getD d 0 = P.countP (fun p => p.1 == d)) →
    (∀ d, d < cnt.length → ∀ t, t < P.countP (fun p => p.1 == d) →
      data.getD ((cnt.take d).sum + t) 0
        = ((P.filter (fun p => p.1 == d)).map (fun p => p.2)).getD t 0) →
    ((S.foldl (fun st p => fillStep (List.scanl (· + ·) 0 cnt) st p.1 p.2)
        (data, cur)).1.length = cnt.sum ∧
      (∀ d, d < cnt.length → ∀ t, t < L.countP (fun p => p.1 == d) →
        (S.foldl (fun st p => fillStep (List.scanl (· + ·) 0 cnt) st p.1 p.2)
            (data, cur)).1.getD ((cnt.take d).sum + t) 0
          = ((L.filter (fun p => p.1 == d)).map (fun p => p.2)).getD t 0)) := by
  intro S
  induction S with
  | nil =>
      intro P data cur hsplit hdata hcur hcurval hfilled
      rw [List.foldl_nil]
      have hPL : P = L := by rw [hsplit, List.append_nil]
      subst hPL
      exact ⟨hdata, hfilled⟩
  | cons p S' ih =>
      intro P data cur hsplit hdata hcur hcurval hfilled
      obtain ⟨d, e⟩ := p
      have hmem : (d, e) ∈ L := by
        rw [hsplit]; exact List.mem_append_right _ (List.mem_cons_self _ _)
      have hd : d < cnt.length := hL _ hmem
      -- abbreviations for the counters involved
      have hoff : (List.scanl (· + ·) 0 cnt).getD d 0 = (cnt.take d).sum := by
        rw [scanl_add_getD _ _ _ (Nat.le_of_lt hd)]; omega
      have hpc_lt : P.countP (fun p => p.1 == d) < cnt.getD d 0 := by
        rw [hcnt d hd, hsplit, List.countP_append, List.countP_cons]
        simp
      have hsumsucc := take_sum_succ cnt d hd
      have hsumle : (cnt.take (d + 1)).sum ≤ cnt.sum := by
        have := take_sum_mono cnt (Nat.succ_le_of_lt hd)
        rwa [List.take_length] at this
      have hpos_lt : (cnt.take d).sum + cur.getD d 0 < data.length := by
        rw [hdata, hcurval d hd]; omega
      -- the state after the head write
      have hstep : fillStep (List.scanl (· + ·) 0 cnt) (data, cur) d e
          = (data.set ((cnt.take d).sum + cur.getD d 0) e, incr cur d) := by
        unfold fillStep
        rw [hoff]
      rw [List.foldl_cons, hstep]
      -- re-establish the invariant for the longer processed prefix
      refine ih (P ++ [(d, e)]) _ _ (by rw [hsplit]; simp) ?_ ?_ ?_ ?_
      · rw [List.length_set]; exact hdata
      · rw [incr_length]; exact hcur
      · intro d0 hd0
        rw [List.countP_append, List.countP_cons, List.countP_nil]
        by_cases h : d = d0
        · subst h
          rw [incr_getD_self _ _ (by rw [hcur]; exact hd), hcurval d hd0]
          simp
        · rw [incr_getD_ne _ _ _ h, hcurval d0 hd0]
          have : (((d, e)).1 == d0) = false := by simpa using h
          rw [this]
          simp
      · intro d0 hd0 t ht
        rw [List.countP_append, List.countP_cons, List.countP_nil] at ht
        have hfl : (P ++ [(d, e)]).filter (fun p => p.1 == d0)
            = P.filter (fun p => p.1 == d0)
              ++ [(d, e)].filter (fun p => p.1 == d0) := List.filter_append _ _
        have hPlen : ((P.filter (fun p => p.1 == d0)).map (fun p => p.2)).length
            = P.countP (fun p => p.1 == d0) := by
          rw [List.length_map, ← List.countP_eq_length_filter]
        by_cases h : d = d0
        · subst h
          have hsingle : ([((d, e))].filter (fun p => p.1 == d)) = [(d, e)] := by
            simp
          rw [hsingle] at hfl
          have htrue : (((d, e)).1 == d) = true := by simp
          rw [htrue] at ht
          have ht2 : t < P.countP (fun p => p.1 == d) + 1 := by simpa using ht
          rcases Nat.lt_or_ge t (P.countP (fun p => p.1 == d)) with hlt | hge
          · -- an earlier slot of the same block: untouched by the write
            have hne1 : (cnt.take d).sum + cur.getD d 0
                ≠ (cnt.take d).sum + t := by
              rw [hcurval d hd0]; omega
            have hlen1 : t < ((P.filter (fun p => p.1 == d)).map
                (fun p => p.2)).length := by
              rw [hPlen]; exact hlt
            rw [getD_set_ne _ _ _ _ hne1, hfl, List.map_append,
              List.getD_append _ _ _ _ hlen1]
            exact hfilled d hd0 t hlt
          · -- the freshly written slot
            have hteq : t = P.countP (fun p => p.1 == d) := by omega
            subst hteq
            rw [hcurval d hd0] at hpos_lt ⊢
            rw [getD_set_self _ _ _ hpos_lt]
            have hlen2 : ((P.filter (fun p => p.1 == d)).map
                (fun p => p.2)).length ≤ P.countP (fun p => p.1 == d) := by
              rw [hPlen]
            rw [hfl, List.map_append,
              List.getD_append_right _ _ _ _ hlen2, hPlen, Nat.sub_self]
            rfl
        · -- a different block: its slice is disjoint from the write position
          have hfalse : (((d, e)).1 == d0) = false := by simpa using h
          rw [hfalse] at ht
          have ht' : t < P.countP (fun p => p.1 == d0) := by simpa using ht
          have hple : P.countP (fun p => p.1 == d0) ≤ cnt.getD d0 0 := by
            rw [hcnt d0 hd0, hsplit, List.countP_append]; omega
          have hsep : (cnt.take d0).sum + t
              ≠ (cnt.take d).sum + cur.getD d 0 := by
            rw [hcurval d hd]
            rcases Nat.lt_or_ge d0 d with hlt | hge
            · have h1 := take_sum_succ cnt d0 hd0
              have h2 : (cnt.take (d0 + 1)).sum ≤ (cnt.take d).sum :=
                take_sum_mono cnt hlt
              omega
            · have hgt : d < d0 := Nat.lt_of_le_of_ne hge h
              have h2 : (cnt.take (d + 1)).sum ≤ (cnt.take d0).sum :=
                take_sum_mono cnt hgt
              omega
          rw [getD_set_ne _ _ _ _ (Ne.symm hsep)]
          have hfl0 : ([((d, e))].filter (fun p => p.1 == d0)) = [] := by
            simp [hfalse]
          rw [hfl, hfl0, List.append_nil]
          exact hfilled d0 hd0 t ht'

/-- Claim C5: for every entity list satisfying the one-incident-cell
precondition (and whose closure dof blocks are in range, as the C++
indexing assumes), the two-pass CSR construction of
`create_block_to_facet_map` returns data of total length equal to the sum
over input entities of their number of closure dof blocks, and every
(block, entity) incidence of the direct enumeration appears in that
block's row (the `offsets`-delimited slice of `data`) exactly as many
times as it was enumerated. -/
theorem claim_C5 (M : FacetSpace) (entities : List ℕ) (data offsets : List ℕ)
    (hres : create_block_to_facet_map M entities = some (data, offsets))
    (hvalid : ∀ e ∈ entities, ∀ d ∈ blocksOfEntity M e, d < M.num_dofs) :
    data.length = (entities.map (fun e => (blocksOfEntity M e).length)).sum ∧
    (∀ b, b < M.num_dofs → ∀ ent : ℕ,
      ((data.drop (offsets.getD b 0)).take
          (offsets.getD (b + 1) 0 - offsets.getD b 0)).count ent
        = (incid M entities).count (b, ent)) := by
  unfold create_block_to_facet_map at hres
  by_cases hall : entities.all (fun e => (M.e_to_c e).length == 1)
  case neg => rw [if_neg hall] at hres; cases hres
  rw [if_pos hall] at hres
  injection hres with hres'
  obtain ⟨hdataeq, hoffeq⟩ := Prod.mk.inj hres'
  have hpass1 : pass1 M entities
      = (incid M entities).foldl (fun c p => incr c p.1)
          (List.replicate M.num_dofs 0) :=
    foldl_nested_eq M entities (fun st d _ => incr st d) _
  have hclen : (pass1 M entities).length = M.num_dofs := by
    rw [hpass1, foldl_pairs_incr_length, List.length_replicate]
  have hrepl : ∀ d, d < M.num_dofs →
      (List.replicate M.num_dofs (0 : ℕ)).getD d 0 = 0 := by
    intro d hd
    rw [List.getD_eq_getElem _ _ (by simpa using hd)]
    simp
  have hL : ∀ p ∈ incid M entities, p.1 < M.num_dofs := by
    intro p hp
    obtain ⟨e, he, hp2⟩ := List.mem_flatMap.mp hp
    obtain ⟨dd, hdd, rfl⟩ := List.mem_map.mp hp2
    exact hvalid e he dd hdd
  have hcnt : ∀ d, d < M.num_dofs →
      (pass1 M entities).getD d 0
        = (incid M entities).countP (fun p => p.1 == d) := by
    intro d hd
    rw [hpass1, foldl_pairs_incr_getD _ _ _ (by simpa using hd), hrepl d hd,
      Nat.zero_add]
  have hsum : (pass1 M entities).sum = (incid M entities).length := by
    rw [hpass1, foldl_pairs_incr_sum _ _
      (fun p hp => by rw [List.length_replicate]; exact hL p hp)]
    simp
  have hpass2 : pass2 M entities (List.scanl (· + ·) 0 (pass1 M entities))
      = (incid M entities).foldl
          (fun st p => fillStep (List.scanl (· + ·) 0 (pass1 M entities))
            st p.1 p.2)
          (List.replicate
              ((List.scanl (· + ·) 0 (pass1 M entities)).getLastD 0) 0,
            List.replicate M.num_dofs 0) :=
    foldl_nested_eq M entities
      (fun st d e => fillStep (List.scanl (· + ·) 0 (pass1 M entities)) st d e) _
  have hinitlen : (List.replicate
      ((List.scanl (· + ·) 0 (pass1 M entities)).getLastD 0) (0 : ℕ)).length
        = (pass1 M entities).sum := by
    rw [List.length_replicate, scanl_add_getLastD, Nat.zero_add]
  obtain ⟨hfin_len, hfin⟩ := fill_invariant (pass1 M entities) (incid M entities)
    (fun p hp => by rw [hclen]; exact hL p hp)
    (fun d hd => hcnt d (by rw [hclen] at hd; exact hd))
    (incid M entities) []
    (List.replicate ((List.scanl (· + ·) 0 (pass1 M entities)).getLastD 0) 0)
    (List.replicate M.num_dofs 0)
    (by simp)
    hinitlen
    (by rw [List.length_replicate, hclen])
    (fun d hd => by
      rw [List.countP_nil, hrepl d (by rw [hclen] at hd; exact hd)])
    (fun d hd t ht => by rw [List.countP_nil] at ht; omega)
  have hdata2 : data = ((incid M entities).foldl
      (fun st p => fillStep (List.scanl (· + ·) 0 (pass1 M entities)) st p.1 p.2)
      (List.replicate
          ((List.scanl (· + ·) 0 (pass1 M entities)).getLastD 0) 0,
        List.replicate M.num_dofs 0)).1 := by
    rw [← hdataeq, hpass2]
  have hdlen : data.length = (pass1 M entities).sum := by
    rw [hdata2]; exact hfin_len
  constructor
  · rw [hdlen, hsum]
    unfold incid
    rw [List.length_flatMap]
    have hcomp : (List.length ∘ fun e => List.map (fun d => (d, e))
        (blocksOfEntity M e)) = fun e => (blocksOfEntity M e).length := by
      funext e
      simp
    rw [hcomp]
  · intro b hb ent
    have hble : b ≤ (pass1 M entities).length := by rw [hclen]; omega
    have hb1le : b + 1 ≤ (pass1 M entities).length := by rw [hclen]; omega
    have hoffb : offsets.getD b 0 = ((pass1 M entities).take b).sum := by
      rw [← hoffeq, scanl_add_getD _ _ _ hble, Nat.zero_add]
    have hoffb1 : offsets.getD (b + 1) 0
        = ((pass1 M entities).take (b + 1)).sum := by
      rw [← hoffeq, scanl_add_getD _ _ _ hb1le, Nat.zero_add]
    have hbltlen : b < (pass1 M entities).length := by rw [hclen]; exact hb
    have hsucc := take_sum_succ (pass1 M entities) b hbltlen
    have hdiff : offsets.getD (b + 1) 0 - offsets.getD b 0
        = (pass1 M entities).getD b 0 := by
      rw [hoffb, hoffb1, hsucc]; omega
    have hrowle : ((pass1 M entities).take b).sum + (pass1 M entities).getD b 0
        ≤ data.length := by
      rw [hdlen, ← hsucc]
      have := take_sum_mono (pass1 M entities) hbltlen
      rw [List.take_length] at this
      exact this
    have hLcount : (incid M entities).countP (fun p => p.1 == b)
        = (pass1 M entities).getD b 0 := (hcnt b hb).symm
    have hrow : (data.drop (offsets.getD b 0)).take
        (offsets.getD (b + 1) 0 - offsets.getD b 0)
          = ((incid M entities).filter (fun p => p.1 == b)).map
            (fun p => p.2) := by
      apply List.ext_getElem
      · rw [List.length_take, List.length_drop, hdiff, hoffb,
          List.length_map, ← List.countP_eq_length_filter, hLcount]
        omega
      · intro i h1 h2
        have hic : i < (pass1 M entities).getD b 0 := by
          rw [List.length_take, List.length_drop, hdiff] at h1
          omega
        have hidx : ((pass1 M entities).take b).sum + i < data.length := by
          omega
        rw [List.getElem_take, List.getElem_drop]
        have hlt2 : offsets.getD b 0 + i < data.length := by
          rw [hoffb]; exact hidx
        have hgd := List.getD_eq_getElem data 0 hlt2
        rw [← hgd]
        have hcount_i : i < (incid M entities).countP (fun p => p.1 == b) := by
          rw [hLcount]; exact hic
        have := hfin b (by rw [hclen]; exact hb) i hcount_i
        rw [← hdata2] at this
        rw [hoffb, this]
        exact List.getD_eq_getElem _ _ h2
    rw [hrow, count_filter_map_pairs]

/-- Witness for C5: the one-cell instance `facetW` with entities
`[0, 1]`, whose blocks are `[2, 0]` and `[0, 1]`, yields
`data = [0, 1, 1, 0]` and `offsets = [0, 2, 3, 4]`. -/
theorem claim_C5_witness :
    ([0, 1, 1, 0] : List ℕ).length
        = (([0, 1] : List ℕ).map (fun e => (blocksOfEntity facetW e).length)).sum ∧
    (∀ b, b < facetW.num_dofs → ∀ ent : ℕ,
      ((([0, 1, 1, 0] : List ℕ).drop (([0, 2, 3, 4] : List ℕ).getD b 0)).take
          (([0, 2, 3, 4] : List ℕ).getD (b + 1) 0
            - ([0, 2, 3, 4] : List ℕ).getD b 0)).count ent
        = (incid facetW [0, 1]).count (b, ent)) :=
  claim_C5 facetW [0, 1] [0, 1, 1, 0] [0, 2, 3, 4] (by decide) (by decide)

/-- Claim C8: the block-to-entity construction asserts fatally when an
input entity has more than one incident cell (modelled by the `none`
result); under the precondition that every input entity has exactly one
incident cell, the assertion branch is unreachable (the construction
succeeds) and the first pass reads exactly one cell per entity:
`e_to_c e` is the singleton of the cell that is read. -/
theorem claim_C8 (M : FacetSpace) (entities : List ℕ) :
    (∀ e ∈ entities, 1 < (M.e_to_c e).length →
      create_block_to_facet_map M entities = none) ∧
    ((∀ e ∈ entities, (M.e_to_c e).length = 1) →
      (create_block_to_facet_map M entities).isSome = true ∧
      ∀ e ∈ entities, M.e_to_c e = [entityCell M e]) := by
  constructor
  · intro e he hgt
    unfold create_block_to_facet_map
    rw [if_neg]
    intro hall
    rw [List.all_eq_true] at hall
    have := hall e he
    simp at this
    omega
  · intro hone
    constructor
    · unfold create_block_to_facet_map
      rw [if_pos]
      · rfl
      · rw [List.all_eq_true]
        intro e he
        simp [hone e he]
    · intro e he
      obtain ⟨a, ha⟩ := List.length_eq_one.mp (hone e he)
      rw [ha]
      simp [entityCell, ha]

/-- Witness for C8: `facetBad` (entity with two incident cells) is
rejected; `facetW` (every entity with one incident cell) succeeds and
reads cell `0` for each entity. -/
theorem claim_C8_witness :
    create_block_to_facet_map facetBad [0] = none ∧
    ((create_block_to_facet_map facetW [0, 1]).isSome = true ∧
      ∀ e ∈ ([0, 1] : List ℕ), facetW.e_to_c e = [entityCell facetW e]) :=
  ⟨(claim_C8 facetBad [0]).1 0 (by decide) (by decide),
    (claim_C8 facetW [0, 1]).2 (by decide)⟩

/-- Claim C9: for every function space, point and negative cell index,
`get_basis_functions` returns the all-zero array of shape
`(basis_shape[2] * element_bs, basis_shape[3] * element_bs)` — the
geometry/basis evaluation (the `compute` field) is never consulted. -/
theorem claim_C9 (V : BasisEvalInput) (x : List ℚ) (index : ℤ)
    (hneg : index < 0) :
    get_basis_functions V x index =
      ((V.basis_shape2 * V.element_bs, V.basis_shape3 * V.element_bs),
        fun _ _ => 0) := by
  simp [get_basis_functions, hneg]

/-- Witness for C9: a concrete element whose `compute` field is nowhere
zero still yields the zero array at cell index `-1`. -/
theorem claim_C9_witness :
    get_basis_functions ⟨2, 3, 2, fun _ _ _ _ => 1⟩ [0, 0] (-1) =
      ((2 * 2, 3 * 2), fun _ _ => 0) :=
  claim_C9 ⟨2, 3, 2, fun _ _ _ _ => 1⟩ [0, 0] (-1) (by decide)

theorem min_element_aux_spec (ds : List ℚ) (b : ℕ × ℚ) (k : ℕ) :
    (min_element_aux b k ds = b ∨
      ∃ j, ∃ h : j < ds.length,
        min_element_aux b k ds = (k + j, ds.get ⟨j, h⟩)) ∧
    (min_element_aux b k ds).2 ≤ b.2 ∧
    ∀ d ∈ ds, (min_element_aux b k ds).2 ≤ d := by
  induction ds generalizing b k with
  | nil => simp [min_element_aux]
  | cons d rest ih =>
      by_cases hd : d < b.2
      · have heq : min_element_aux b k (d :: rest) =
            min_element_aux (k, d) (k + 1) rest := by
          show min_element_aux (if d < b.2 then (k, d) else b) (k + 1) rest = _
          rw [if_pos hd]
        obtain ⟨ih1, ih2, ih3⟩ := ih (k, d) (k + 1)
        refine ⟨?_, ?_, ?_⟩
        · rcases ih1 with h | ⟨j, hj, h⟩
          · exact Or.inr ⟨0, by simp, by rw [heq, h]; simp⟩
          · refine Or.inr ⟨j + 1, by simpa using hj, ?_⟩
            rw [heq, h]
            have hadd : k + 1 + j = k + (j + 1) := by omega
            rw [hadd]
            exact rfl
        · rw [heq]; exact le_trans ih2 (le_of_lt hd)
        · intro e he
          rw [heq]
          rcases List.mem_cons.mp he with h | h
          · subst h; exact ih2
          · exact ih3 e h
      · have heq : min_element_aux b k (d :: rest) =
            min_element_aux b (k + 1) rest := by
          show min_element_aux (if d < b.2 then (k, d) else b) (k + 1) rest = _
          rw [if_neg hd]
        obtain ⟨ih1, ih2, ih3⟩ := ih b (k + 1)
        refine ⟨?_, ?_, ?_⟩
        · rcases ih1 with h | ⟨j, hj, h⟩
          · exact Or.inl (by rw [heq, h])
          · refine Or.inr ⟨j + 1, by simpa using hj, ?_⟩
            rw [heq, h]
            have hadd : k + 1 + j = k + (j + 1) := by omega
            rw [hadd]
            exact rfl
        · rw [heq]; exact ih2
        · intro e he
          rw [heq]
          rcases List.mem_cons.mp he with h | h
          · subst h
            exact le_trans ih2 (not_lt.mp hd)
          · exact ih3 e h

theorem collidingRow_spec (dist : ℕ → ℚ) (eps2 : ℚ) (cells : List ℕ) :
    (collidingRow dist eps2 cells).length ≤ 1 ∧
    (cells = [] → collidingRow dist eps2 cells = []) ∧
    ((∃ c ∈ cells, (∀ c' ∈ cells, dist c ≤ dist c') ∧ eps2 ≤ dist c) →
      collidingRow dist eps2 cells = []) ∧
    ((∃ c ∈ cells, (∀ c' ∈ cells, dist c ≤ dist c') ∧ dist c < eps2) →
      ∃ c ∈ cells, collidingRow dist eps2 cells = [c] ∧ dist c < eps2 ∧
        ∀ c' ∈ cells, dist c ≤ dist c') ∧
    (collidingRow dist eps2 cells ≠ [] →
      ∃ c ∈ cells, collidingRow dist eps2 cells = [c] ∧ dist c < eps2 ∧
        ∀ c' ∈ cells, dist c ≤ dist c') := by
  match cells with
  | [] => simp [collidingRow]
  | c :: rest =>
      obtain ⟨h1, h2, h3⟩ := min_element_aux_spec (rest.map dist) (0, dist c) 1
      set best := min_element_aux (0, dist c) 1 (rest.map dist) with hbest
      have hrow : collidingRow dist eps2 (c :: rest) =
          if best.2 < eps2 then [(c :: rest).getD best.1 0] else [] := rfl
      have hatt : ∃ hlt : best.1 < (c :: rest).length,
          best.2 = dist ((c :: rest).get ⟨best.1, hlt⟩) := by
        rcases h1 with h | ⟨j, hj, h⟩
        · rw [h]; exact ⟨by simp, rfl⟩
        · rw [h]
          have hj' : j < rest.length := by simpa using hj
          refine ⟨by simp; omega, ?_⟩
          simp [show (1 + j) = j + 1 from Nat.add_comm 1 j,
            List.get_eq_getElem]
      have hmin : ∀ c' ∈ c :: rest, best.2 ≤ dist c' := by
        intro c' hc'
        rcases List.mem_cons.mp hc' with h | h
        · subst h; exact h2
        · exact h3 (dist c') (List.mem_map_of_mem dist h)
      refine ⟨?_, ?_, ?_, ?_, ?_⟩
      · rw [hrow]
        by_cases h : best.2 < eps2
        · rw [if_pos h]; simp
        · rw [if_neg h]; simp
      · intro h; cases h
      · rintro ⟨c0, hc0, hc0min, hc0eps⟩
        rw [hrow, if_neg]
        obtain ⟨hlt, hval⟩ := hatt
        have : dist c0 ≤ best.2 := by
          rw [hval]
          exact hc0min _ (List.get_mem _ _ _)
        exact not_lt.mpr (le_trans hc0eps this)
      · rintro ⟨c0, hc0, hc0min, hc0eps⟩
        have hbeps : best.2 < eps2 := lt_of_le_of_lt (hmin c0 hc0) hc0eps
        rw [hrow, if_pos hbeps]
        obtain ⟨hlt, hval⟩ := hatt
        refine ⟨(c :: rest).get ⟨best.1, hlt⟩, List.get_mem _ _ _, ?_, ?_, ?_⟩
        · rw [List.getD_eq_getElem _ _ hlt]
          rfl
        · rw [← hval]; exact hbeps
        · intro c' hc'
          rw [← hval]; exact hmin c' hc'
      · intro hne
        rw [hrow] at hne ⊢
        by_cases h : best.2 < eps2
        · rw [if_pos h]
          obtain ⟨hlt, hval⟩ := hatt
          refine ⟨(c :: rest).get ⟨best.1, hlt⟩, List.get_mem _ _ _, ?_, ?_, ?_⟩
          · rw [List.getD_eq_getElem _ _ hlt]
            rfl
          · rw [← hval]; exact h
          · intro c' hc'
            rw [← hval]; exact hmin c' hc'
        · rw [if_neg h] at hne; exact absurd rfl hne

/-- Claim C10: for every input point of `compute_colliding_cells`, the
returned row contains at most one cell; it is empty when the candidate
list is empty or when the minimal squared distance to the candidates is
not below `eps2`; otherwise — some candidate attains the minimum and its
squared distance is below `eps2` — the row is exactly one candidate
attaining that minimal squared distance (and conversely any nonempty row
is such a single minimizer).  Consequently `find_local_collisions`
returns, per point, either such a cell or `-1`. -/
theorem claim_C10 (dist : ℕ → ℕ → ℚ) (eps2 : ℚ) (cands : List (List ℕ))
    (i : ℕ) (hi : i < cands.length) :
    ((compute_colliding_cells dist eps2 cands).getD i []).length ≤ 1 ∧
    (cands.getD i [] = [] →
      (compute_colliding_cells dist eps2 cands).getD i [] = []) ∧
    ((∃ c ∈ cands.getD i [], (∀ c' ∈ cands.getD i [], dist i c ≤ dist i c') ∧
        eps2 ≤ dist i c) →
      (compute_colliding_cells dist eps2 cands).getD i [] = []) ∧
    ((∃ c ∈ cands.getD i [], (∀ c' ∈ cands.getD i [], dist i c ≤ dist i c') ∧
        dist i c < eps2) →
      ∃ c ∈ cands.getD i [],
        (compute_colliding_cells dist eps2 cands).getD i [] = [c] ∧
        dist i c < eps2 ∧ ∀ c' ∈ cands.getD i [], dist i c ≤ dist i c') ∧
    ((compute_colliding_cells dist eps2 cands).getD i [] ≠ [] →
      ∃ c ∈ cands.getD i [],
        (compute_colliding_cells dist eps2 cands).getD i [] = [c] ∧
        dist i c < eps2 ∧ ∀ c' ∈ cands.getD i [], dist i c ≤ dist i c') ∧
    (find_local_collisions dist eps2 cands).getD i 0 =
      (match (compute_colliding_cells dist eps2 cands).getD i [] with
        | [] => -1 | c :: _ => (c : ℤ)) := by
  have hlen : (compute_colliding_cells dist eps2 cands).length = cands.length := by
    simp [compute_colliding_cells]
  have hrow : (compute_colliding_cells dist eps2 cands).getD i [] =
      collidingRow (dist i) eps2 (cands.getD i []) := by
    rw [List.getD_eq_getElem _ _ (by rw [hlen]; exact hi)]
    simp [compute_colliding_cells]
  have hfind : (find_local_collisions dist eps2 cands).getD i 0 =
      (match (compute_colliding_cells dist eps2 cands).getD i [] with
        | [] => -1 | c :: _ => (c : ℤ)) := by
    have hlen2 : (find_local_collisions dist eps2 cands).length = cands.length := by
      simp [find_local_collisions, hlen]
    rw [List.getD_eq_getElem _ _ (by rw [hlen2]; exact hi),
      List.getD_eq_getElem _ _ (by rw [hlen]; exact hi)]
    simp [find_local_collisions]
  obtain ⟨s1, s2, s3, s4, s5⟩ :=
    collidingRow_spec (dist i) eps2 (cands.getD i [])
  rw [hrow]
  exact ⟨s1, s2, s3, s4, s5, hfind.trans (by rw [hrow])⟩

/-- Witness for C10: one point with candidate cells `[3, 0, 5]` at
squared distances `3, 0, 5` and `eps2 = 1` collides with cell `0`: the
returned row is exactly `[0]` and `find_local_collisions` reports `0`. -/
theorem claim_C10_witness :
    (((compute_colliding_cells (fun _ c => (c : ℚ)) 1 [[3, 0, 5]]).getD 0 []).length ≤ 1 ∧
    (([[3, 0, 5]] : List (List ℕ)).getD 0 [] = [] →
      (compute_colliding_cells (fun _ c => (c : ℚ)) 1 [[3, 0, 5]]).getD 0 [] = []) ∧
    ((∃ c ∈ ([[3, 0, 5]] : List (List ℕ)).getD 0 [],
        (∀ c' ∈ ([[3, 0, 5]] : List (List ℕ)).getD 0 [], (c : ℚ) ≤ (c' : ℚ)) ∧
        (1 : ℚ) ≤ (c : ℚ)) →
      (compute_colliding_cells (fun _ c => (c : ℚ)) 1 [[3, 0, 5]]).getD 0 [] = []) ∧
    ((∃ c ∈ ([[3, 0, 5]] : List (List ℕ)).getD 0 [],
        (∀ c' ∈ ([[3, 0, 5]] : List (List ℕ)).getD 0 [], (c : ℚ) ≤ (c' : ℚ)) ∧
        (c : ℚ) < 1) →
      ∃ c ∈ ([[3, 0, 5]] : List (List ℕ)).getD 0 [],
        (compute_colliding_cells (fun _ c => (c : ℚ)) 1 [[3, 0, 5]]).getD 0 [] = [c] ∧
        (c : ℚ) < 1 ∧ ∀ c' ∈ ([[3, 0, 5]] : List (List ℕ)).getD 0 [], (c : ℚ) ≤ (c' : ℚ)) ∧
    ((compute_colliding_cells (fun _ c => (c : ℚ)) 1 [[3, 0, 5]]).getD 0 [] ≠ [] →
      ∃ c ∈ ([[3, 0, 5]] : List (List ℕ)).getD 0 [],
        (compute_colliding_cells (fun _ c => (c : ℚ)) 1 [[3, 0, 5]]).getD 0 [] = [c] ∧
        (c : ℚ) < 1 ∧ ∀ c' ∈ ([[3, 0, 5]] : List (List ℕ)).getD 0 [], (c : ℚ) ≤ (c' : ℚ)) ∧
    (find_local_collisions (fun _ c => (c : ℚ)) 1 [[3, 0, 5]]).getD 0 0 =
      (match (compute_colliding_cells (fun _ c => (c : ℚ)) 1 [[3, 0, 5]]).getD 0 [] with
        | [] => -1 | c :: _ => (c : ℤ))) ∧
    (compute_colliding_cells (fun _ c => (c : ℚ)) 1 [[3, 0, 5]]).getD 0 [] = [0] ∧
    (find_local_collisions (fun _ c => (c : ℚ)) 1 [[3, 0, 5]]).getD 0 0 = 0 :=
  ⟨claim_C10 (fun _ c => (c : ℚ)) 1 [[3, 0, 5]] 0 (by decide),
    by decide, by decide⟩

end DolfinxMPC
